import Mathlib

/-!
Verification of the extraction / streaming core of `server.js`.

This file shallowly embeds the core logic of the Instagram-downloader
backend (`src/server.js`) in Lean 4 and proves/refutes the frozen claims
about it.  Strings are modelled as `List Char`; the JavaScript regular
expressions of the source are modelled as executable anchored matchers
plus a left-to-right sliding scanner (the semantics of
`String.prototype.match` / global `exec` loops for these specific
patterns); `JSON.parse` is modelled by an executable JSON parser (numbers
restricted to integers — no claim involves fractional numbers);
exceptions are modelled with `Except`.
-/

namespace SaveGram

/-- JavaScript `\s` whitespace class (ASCII part; the patterns in the
source only ever meet ASCII whitespace). -/
def isJsWs (c : Char) : Bool :=
  c = ' ' || c = '\t' || c = '\n' || c = '\r' || c = '\x0c' || c = '\x0b'

/-- Case-sensitive literal prefix: if `pat` is a prefix of `s`, return the
remainder of `s`, else `none`.  Models matching a literal regex fragment. -/
def dropLit : List Char → List Char → Option (List Char)
  | [], s => some s
  | _, [] => none
  | p :: ps, c :: cs => if c = p then dropLit ps cs else none

theorem dropLit_length : ∀ pat s r, dropLit pat s = some r →
    pat.length + r.length = s.length := by
  intro pat
  induction pat with
  | nil => intro s r h; simp [dropLit] at h; simp [h]
  | cons p ps ih =>
    intro s r h
    cases s with
    | nil => simp [dropLit] at h
    | cons c cs =>
      simp only [dropLit] at h
      split at h
      · have := ih cs r h
        simp [List.length_cons]
        omega
      · exact absurd h (by simp)

/-- Case-insensitive literal prefix (models a literal fragment of a regex
with the `i` flag, ASCII case folding): if `pat` matches a prefix of `s`
up to case, return the remainder of `s`. -/
def dropLitCI : List Char → List Char → Option (List Char)
  | [], s => some s
  | _, [] => none
  | p :: ps, c :: cs => if c.toLower = p.toLower then dropLitCI ps cs else none

/-- Pointwise ASCII-case-insensitive equality of two char lists. -/
def ciEqList : List Char → List Char → Bool
  | [], [] => true
  | a :: as, b :: bs => (a.toLower = b.toLower) && ciEqList as bs
  | _, _ => false

/-- Model of `String.prototype.replace(/lit/g, rep)` for a literal pattern:
left-to-right, non-overlapping, the replacement text is not rescanned.
The fuel argument makes the recursion structural (hence kernel-
computable); every consumed pattern occurrence has length ≥ 1 at every
use site, so `fuel = s.length` never runs out (the remainder after a
match is at least one character shorter, and the fuel drops by exactly
one). -/
def replaceLitAux (pat rep : List Char) : Nat → List Char → List Char
  | _, [] => []
  | 0, s => s
  | Nat.succ fuel, c :: t =>
    match dropLit pat (c :: t) with
    | some rest => rep ++ replaceLitAux pat rep fuel rest
    | none => c :: replaceLitAux pat rep fuel t

def replaceLit (pat rep s : List Char) : List Char :=
  replaceLitAux pat rep s.length s

/-- Model of `.replace(/\\u0026/g, '&')` from the source: decode the escape
sequence `\u0026` to `&`. -/
def decodeAmp (s : List Char) : List Char :=
  replaceLit ['\\', 'u', '0', '0', '2', '6'] ['&'] s

/-- Model of `.replace(/\\u0026/g, '&').replace(/\\\//g, '/')` from
`extractFromGraphQL` (Strategy C): decode `\u0026` to `&`, then `\/` to
`/`. -/
def decodeAmpSlash (s : List Char) : List Char :=
  replaceLit ['\\', '/'] ['/'] (decodeAmp s)

/-! ## URL Normalizer (`validateUrl`, src/server.js:53,69-79)

The source matches
`/^https?:\/\/(www\.)?instagram\.com\/(p|reel|reels|tv)\/([A-Za-z0-9_-]+)/i`
and on success returns
`{ url: https://www.instagram.com/<type>/<shortcode>/, shortcode, type }`,
where `type`/`shortcode` are the captured substrings (original case).

Backtracking notes (why the sequential `orElse` translation below is
exact):
* `https?:\/\/` — try `https://`, else `http://`; if the `s` branch fails
  the engine retries without `s`, and both branches disagree with the
  input at the same position only when both fail.
* `(www\.)?instagram\.com\/` — `www.` and `instagram.com/` differ at
  their first character even case-insensitively, so "try with `www.`,
  else without" is exact.
* `(p|reel|reels|tv)\/([A-Za-z0-9_-]+)` — the alternatives are tried
  left to right; an alternative commits only if it is followed by `/`
  and at least one shortcode character, otherwise the engine backtracks
  to the next alternative.  The capture keeps the input's case. -/

/-- The character class `[A-Za-z0-9_-]` of the shortcode capture. -/
def isShortcodeChar (c : Char) : Bool :=
  ('A' ≤ c && c ≤ 'Z') || ('a' ≤ c && c ≤ 'z') || ('0' ≤ c && c ≤ '9') ||
    c = '_' || c = '-'

/-- Result of `validateUrl`: `{ url, shortcode, type }`. -/
structure PostRef where
  url : List Char
  shortcode : List Char
  type : List Char
deriving DecidableEq, Repr

/-- One alternative of `(p|reel|reels|tv)\/([A-Za-z0-9_-]+)` (with the
regex's `i` flag): case-insensitively match `alt`, require `/`, then a
non-empty greedy run of shortcode characters; return the matched type
text (input case) and the shortcode. -/
def tryAlt (alt : List Char) (s : List Char) : Option (List Char × List Char) :=
  match dropLitCI alt s with
  | none => none
  | some rest =>
    match rest with
    | '/' :: rest2 =>
      if rest2.takeWhile isShortcodeChar = [] then none
      else some (s.take alt.length, rest2.takeWhile isShortcodeChar)
    | _ => none

/-- The ordered alternation `(p|reel|reels|tv)` followed by
`\/([A-Za-z0-9_-]+)`. -/
def matchType (s : List Char) : Option (List Char × List Char) :=
  match tryAlt ['p'] s with
  | some r => some r
  | none =>
    match tryAlt "reel".data s with
    | some r => some r
    | none =>
      match tryAlt "reels".data s with
      | some r => some r
      | none => tryAlt "tv".data s

/-- The canonical form built by the source:
`https://www.instagram.com/<type>/<shortcode>/`. -/
def canonicalUrl (ty code : List Char) : List Char :=
  "https://www.instagram.com/".data ++ ty ++ '/' :: (code ++ ['/'])

/-- Model of `^https?:\/\/` — try `https://`, else `http://`. -/
def schemeStep (input : List Char) : Option (List Char) :=
  match dropLitCI "https://".data input with
  | some r => some r
  | none => dropLitCI "http://".data input

/-- Model of `(www\.)?instagram\.com\/` — try with `www.`, else without. -/
def hostStep (s : List Char) : Option (List Char) :=
  match dropLitCI "www.instagram.com/".data s with
  | some r => some r
  | none => dropLitCI "instagram.com/".data s

/-- Model of `validateUrl` (src/server.js:69-79). -/
def validateUrl (input : List Char) : Option PostRef :=
  match schemeStep input with
  | none => none
  | some s1 =>
    match hostStep s1 with
    | none => none
    | some s2 =>
      match matchType s2 with
      | none => none
      | some (ty, code) =>
        some { url := canonicalUrl ty code, shortcode := code, type := ty }

/-! ## Strategy B — Open Graph meta tags (`extractFromOpenGraph`,
src/server.js:160-174)

The source builds a DOM with JSDOM and runs
`querySelector('meta[property="og:video"]') || …(og:video:url) ||
…(og:video:secure_url)`, then returns the element's `content` if truthy.
The JSDOM parse itself is an external library; the document's meta tags
are modelled as a list in document order, `querySelector` as the first
list element with the given `property`, and a missing `content`
attribute reflects as the empty string (DOM attribute reflection). -/

/-- A `<meta property=… content=…>` element; `content` is `[]` when the
attribute is absent (DOM reflection of a missing attribute). -/
structure MetaTag where
  property : List Char
  content : List Char
deriving DecidableEq, Repr

/-- Model of `doc.querySelector('meta[property="<p>"]')`: first meta tag in
document order whose `property` equals `p`. -/
def querySelectorMeta (p : List Char) (metas : List MetaTag) : Option MetaTag :=
  metas.find? (fun t => t.property == p)

/-- A successful strategy result `{ videoUrl, method }`. -/
structure ExtractResult where
  videoUrl : List Char
  method : String
deriving DecidableEq, Repr

/-- Model of `extractFromOpenGraph` (src/server.js:160-174): the `||` chain picks
the first *element* present in the preference order; `ogVideo?.content`
then requires that element's content to be truthy (non-empty). -/
def extractFromOpenGraph (metas : List MetaTag) : Option ExtractResult :=
  match (match querySelectorMeta "og:video".data metas with
         | some t => some t
         | none =>
           match querySelectorMeta "og:video:url".data metas with
           | some t => some t
           | none => querySelectorMeta "og:video:secure_url".data metas) with
  | some t =>
    if t.content ≠ [] then some { videoUrl := t.content, method := "opengraph" }
    else none
  | none => none

/-! ## JSON values and `findVideoInObject` (src/server.js:212-232)

JSON values as produced by `JSON.parse`: numbers are modelled as
integers (no claim involves fractional numbers), object fields are kept
in insertion order with duplicate keys already collapsed (last
occurrence wins, as `JSON.parse` does — the parser below enforces
this). -/

inductive JsonVal where
  | str : List Char → JsonVal
  | num : Int → JsonVal
  | bool : Bool → JsonVal
  | null : JsonVal
  | arr : List JsonVal → JsonVal
  | obj : List (List Char × JsonVal) → JsonVal
deriving Repr

instance exceptDecEq {ε α : Type} [DecidableEq ε] [DecidableEq α] :
    DecidableEq (Except ε α) := fun x y =>
  match x, y with
  | .ok a, .ok b =>
    if h : a = b then isTrue (by rw [h]) else isFalse (by simp [h])
  | .error e, .error f =>
    if h : e = f then isTrue (by rw [h]) else isFalse (by simp [h])
  | .ok _, .error _ => isFalse (by simp)
  | .error _, .ok _ => isFalse (by simp)

/-- Property access `o.k` on a parsed object (keys are unique, so the
first match is the only match). -/
def lookupField (k : List Char) : List (List Char × JsonVal) → Option JsonVal
  | [] => none
  | (k', v) :: rest => if k' == k then some v else lookupField k rest

/-- JavaScript truthiness of a JSON value. -/
def truthy : JsonVal → Bool
  | .str s => !s.isEmpty
  | .num n => n != 0
  | .bool b => b
  | .null => false
  | .arr _ => true
  | .obj _ => true

/-- Model of `(entry.width || 0)` for a quality entry whose `width`, when present,
is a JSON number (non-numeric widths do not occur in the claims'
scope). -/
def widthOf (e : JsonVal) : Int :=
  match e with
  | .obj fields =>
    match lookupField "width".data fields with
    | some (.num n) => n
    | _ => 0
  | _ => 0

/-- First element of maximal key: models the head of
`list.sort((a, b) => key(b) - key(a))` — JavaScript's sort is stable
(ES2019), so the head of the descending sort is the first element
attaining the maximal key. -/
def firstMaxBy {α β : Type} [LinearOrder β] (key : α → β) : List α → Option α
  | [] => none
  | e :: rest =>
    match firstMaxBy key rest with
    | none => some e
    | some r => if key e < key r then some r else some e

/-- Model of `sorted[0].url?.replace(/\\u0026/g, '&')` on the winning quality
entry: a missing or `null` `url` yields `undefined` (treated as no
match by the caller); a string is escape-decoded; accessing `.url` on
`null` or calling `.replace` on a non-string throws a `TypeError`. -/
def entryUrl : JsonVal → Except String (Option (List Char))
  | .null => .error "TypeError"
  | .obj fields =>
    match lookupField "url".data fields with
    | none => .ok none
    | some .null => .ok none
    | some (.str s) => .ok (some (decodeAmp s))
    | some _ => .error "TypeError"
  | _ => .ok none

/-- Model of `for (const val of values) { const found = findVideoInObject(val,
depth + 1); if (found) return found; }` — the recursive call is the
function argument `f`; exceptions propagate, an empty-string result is
falsy and the scan continues. -/
def findVideoScan (f : JsonVal → Except String (Option (List Char))) :
    List JsonVal → Except String (Option (List Char))
  | [] => .ok none
  | v :: vs =>
    match f v with
    | .error e => .error e
    | .ok (some s) => if s ≠ [] then .ok (some s) else findVideoScan f vs
    | .ok none => findVideoScan f vs

/-- The `video_versions` branch of `findVideoInObject`, then the
recursive scan over `Object.values(obj)` (again with the recursive call
passed as `f`). -/
def findVideoObjRest (f : JsonVal → Except String (Option (List Char)))
    (fields : List (List Char × JsonVal)) :
    Except String (Option (List Char)) :=
  match lookupField "video_versions".data fields with
  | some (.arr (e :: es)) =>
    match firstMaxBy widthOf (e :: es) with
    | some best => entryUrl best
    | none => .ok none
  | _ => findVideoScan f (fields.map Prod.snd)

/-- Model of `findVideoInObject(v, depth)` with `fuel = 16 - depth`: the source
guard `depth > 15 || !obj || typeof obj !== 'object'` returns `null`;
a truthy `video_url` is returned first (throwing if it is not a
string), then a non-empty `video_versions` array selects the best
quality entry, then the object's values (or the array's elements) are
scanned recursively at `depth + 1` (i.e. with one unit of fuel less). -/
def findVideoAux : Nat → JsonVal → Except String (Option (List Char))
  | 0, _ => .ok none
  | Nat.succ fuel, v =>
    match v with
    | .arr elems => findVideoScan (fun w => findVideoAux fuel w) elems
    | .obj fields =>
      match lookupField "video_url".data fields with
      | some u =>
        if truthy u then
          match u with
          | .str s => .ok (some (decodeAmp s))
          | _ => .error "TypeError"
        else findVideoObjRest (fun w => findVideoAux fuel w) fields
      | none => findVideoObjRest (fun w => findVideoAux fuel w) fields
    | _ => .ok none

/-- Model of `findVideoInObject(v, depth)` (src/server.js:212-232); the top-level
call in the source is `findVideoInObject(data)` i.e. depth `0`. -/
def findVideoInObject (v : JsonVal) (depth : Nat) :
    Except String (Option (List Char)) :=
  findVideoAux (16 - depth) v

/-! ## `JSON.parse` model

An executable JSON parser: `none` models a thrown `SyntaxError`.
Numbers are restricted to (optionally signed) integers — a fractional or
exponent part makes the parse fail, which is outside the modelled scope
(no claim involves non-integer numbers; leading-zero strictness is also
relaxed).  Duplicate object keys collapse with the last occurrence
winning and the first occurrence's position, as in JavaScript.  `\uXXXX`
escapes decode to the corresponding scalar value (surrogate halves,
which Lean's `Char` cannot hold, do not occur in any claim). -/

/-- JSON whitespace (space, tab, line feed, carriage return). -/
def isJsonWs (c : Char) : Bool :=
  c = ' ' || c = '\t' || c = '\n' || c = '\r'

def skipJWs (s : List Char) : List Char := s.dropWhile isJsonWs

def hexVal (c : Char) : Option Nat :=
  if '0' ≤ c && c ≤ '9' then some (c.toNat - 48)
  else if 'a' ≤ c && c ≤ 'f' then some (c.toNat - 87)
  else if 'A' ≤ c && c ≤ 'F' then some (c.toNat - 55)
  else none

/-- Single-character JSON string escapes. -/
def escChar (c : Char) : Option Char :=
  if c = '"' then some '"'
  else if c = '\\' then some '\\'
  else if c = '/' then some '/'
  else if c = 'b' then some '\x08'
  else if c = 'f' then some '\x0c'
  else if c = 'n' then some '\n'
  else if c = 'r' then some '\r'
  else if c = 't' then some '\t'
  else none

/-- Parse the body of a JSON string (after the opening quote), returning
the decoded characters and the remainder after the closing quote.  Raw
control characters and invalid escapes are syntax errors. -/
def parseJString : List Char → Option (List Char × List Char)
  | [] => none
  | '"' :: t => some ([], t)
  | '\\' :: 'u' :: a :: b :: c :: d :: rest =>
    match hexVal a, hexVal b, hexVal c, hexVal d, parseJString rest with
    | some ha, some hb, some hc, some hd, some (chars, r) =>
      some (Char.ofNat (((ha * 16 + hb) * 16 + hc) * 16 + hd) :: chars, r)
    | _, _, _, _, _ => none
  | '\\' :: e :: rest =>
    match escChar e, parseJString rest with
    | some ec, some (chars, r) => some (ec :: chars, r)
    | _, _ => none
  | c :: rest =>
    if c.toNat < 32 then none
    else
      match parseJString rest with
      | some (chars, r) => some (c :: chars, r)
      | none => none

def isDigitChar (c : Char) : Bool := '0' ≤ c && c ≤ '9'

def digitsToNat (ds : List Char) : Nat :=
  ds.foldl (fun n c => n * 10 + (c.toNat - 48)) 0

/-- Parse an integer JSON number; a fractional or exponent part fails
(outside modelled scope). -/
def parseNumber (s : List Char) : Option (JsonVal × List Char) :=
  match (match s with
         | '-' :: t => (true, t)
         | _ => (false, s)) with
  | (neg, s1) =>
    match s1.takeWhile isDigitChar with
    | [] => none
    | ds =>
      match s1.drop ds.length with
      | '.' :: _ => none
      | 'e' :: _ => none
      | 'E' :: _ => none
      | rest =>
        some (.num (if neg then -(digitsToNat ds : Int) else (digitsToNat ds : Int)), rest)

/-- Insert a parsed member: duplicate keys keep the first occurrence's
position but take the later value, as JavaScript objects do. -/
def insertField (k : List Char) (v : JsonVal) :
    List (List Char × JsonVal) → List (List Char × JsonVal)
  | [] => [(k, v)]
  | (k', v') :: rest =>
    if k' == k then (k', v) :: rest else (k', v') :: insertField k v rest

mutual

/-- Parse one JSON value (leading whitespace skipped). -/
def parseValue : Nat → List Char → Option (JsonVal × List Char)
  | 0, _ => none
  | Nat.succ fuel, s =>
    match skipJWs s with
    | [] => none
    | c :: t =>
      if c = '\x7b' then
        match skipJWs t with
        | '\x7d' :: r => some (.obj [], r)
        | t2 => parseObjBody fuel [] t2
      else if c = '[' then
        match skipJWs t with
        | ']' :: r => some (.arr [], r)
        | t2 => parseArrBody fuel [] t2
      else if c = '"' then
        match parseJString t with
        | some (chars, r) => some (.str chars, r)
        | none => none
      else if c = 't' then
        match dropLit "rue".data t with
        | some r => some (.bool true, r)
        | none => none
      else if c = 'f' then
        match dropLit "alse".data t with
        | some r => some (.bool false, r)
        | none => none
      else if c = 'n' then
        match dropLit "ull".data t with
        | some r => some (.null, r)
        | none => none
      else parseNumber (c :: t)

/-- Parse object members from the first key onward. -/
def parseObjBody : Nat → List (List Char × JsonVal) → List Char →
    Option (JsonVal × List Char)
  | 0, _, _ => none
  | Nat.succ fuel, acc, s =>
    match s with
    | '"' :: t =>
      match parseJString t with
      | some (key, r1) =>
        match skipJWs r1 with
        | ':' :: r2 =>
          match parseValue fuel r2 with
          | some (v, r3) =>
            match skipJWs r3 with
            | ',' :: r4 => parseObjBody fuel (insertField key v acc) (skipJWs r4)
            | '\x7d' :: r4 => some (.obj (insertField key v acc), r4)
            | _ => none
          | none => none
        | _ => none
      | none => none
    | _ => none

/-- Parse array elements from the first element onward. -/
def parseArrBody : Nat → List JsonVal → List Char → Option (JsonVal × List Char)
  | 0, _, _ => none
  | Nat.succ fuel, acc, s =>
    match parseValue fuel s with
    | some (v, r1) =>
      match skipJWs r1 with
      | ',' :: r2 => parseArrBody fuel (acc ++ [v]) r2
      | ']' :: r2 => some (.arr (acc ++ [v]), r2)
      | _ => none
    | none => none

end

/-- Model of `JSON.parse` (throwing modelled as `none`): parse one value and
require only whitespace to remain. -/
def jsonParse (s : List Char) : Option JsonVal :=
  match parseValue (s.length + 1) s with
  | some (v, rest) => if skipJWs rest = [] then some v else none
  | none => none

/-! ## Regex matchers

Anchored matchers for the concrete patterns of the source, each
returning the capture group and the remainder of the input after the
full match.  `firstMatch` models non-global `String.prototype.match`
(leftmost match: try each start position left to right); `scanAll`
models a global `exec` loop (emit the leftmost match, resume after its
end).  Every pattern starts with a non-empty literal, so every match
consumes at least one character and the `length + 1` fuel is always
sufficient. -/

/-- Model of `(https?:[^"]+)` followed by the closing `"`, anchored: returns
(scheme, body, remainder-after-quote).  The greedy `[^"]+` must end at
the first quote (the pattern's closing `"` cannot match elsewhere), and
must be non-empty. -/
def captureUrlParts (s : List Char) :
    Option (List Char × List Char × List Char) :=
  match (match dropLit "https:".data s with
         | some r => some ("https:".data, r)
         | none =>
           match dropLit "http:".data s with
           | some r => some ("http:".data, r)
           | none => none) with
  | none => none
  | some (scheme, r) =>
    match r.takeWhile (fun c => c ≠ '"') with
    | [] => none
    | body =>
      match r.drop body.length with
      | '"' :: rest => some (scheme, body, rest)
      | _ => none

/-- Model of `"<key>"\s*:\s*"(https?:[^"]+)"`, anchored at the start of `s`. -/
def matchKeyUrlAt (key : List Char) (s : List Char) :
    Option (List Char × List Char) :=
  match dropLit ('"' :: (key ++ ['"'])) s with
  | none => none
  | some r1 =>
    match dropLit [':'] (r1.dropWhile isJsWs) with
    | none => none
    | some r2 =>
      match dropLit ['"'] (r2.dropWhile isJsWs) with
      | none => none
      | some r3 =>
        match captureUrlParts r3 with
        | some (scheme, body, rest) => some (scheme ++ body, rest)
        | none => none

/-- Does `".mp4"` occur in `body` at a position `≥ 1`?  (The capture of
the contentUrl pattern is `https?:[^"]+\.mp4[^"]*`: at least one
character must stand between the scheme and `.mp4`.) -/
def containsSeq (needle : List Char) : List Char → Bool
  | [] => needle.isEmpty
  | c :: t => (dropLit needle (c :: t)).isSome || containsSeq needle t

def mp4Check : List Char → Bool
  | [] => false
  | _ :: t => containsSeq ".mp4".data t

/-- Model of `"contentUrl"\s*:\s*"(https?:[^"]+\.mp4[^"]*)"`, anchored. -/
def matchContentUrlAt (s : List Char) : Option (List Char × List Char) :=
  match dropLit "\"contentUrl\"".data s with
  | none => none
  | some r1 =>
    match dropLit [':'] (r1.dropWhile isJsWs) with
    | none => none
    | some r2 =>
      match dropLit ['"'] (r2.dropWhile isJsWs) with
      | none => none
      | some r3 =>
        match captureUrlParts r3 with
        | some (scheme, body, rest) =>
          if mp4Check body then some (scheme ++ body, rest) else none
        | none => none

/-- A character matched by `.` without the `s` flag (anything but a line
terminator). -/
def isDotChar (c : Char) : Bool :=
  !(c = '\n' || c = '\r' || c = '\u2028' || c = '\u2029')

/-- Lazy gap `.*?` (no `s` flag) followed by the `"url"…` tail of the
`video_versions` pattern: try the tail at each position, consuming only
dot-matching characters, shortest gap first. -/
def lazyUrlTail : Nat → List Char → Option (List Char × List Char)
  | 0, _ => none
  | Nat.succ fuel, s =>
    match matchKeyUrlAt "url".data s with
    | some r => some r
    | none =>
      match s with
      | [] => none
      | c :: t => if isDotChar c then lazyUrlTail fuel t else none

/-- Model of `video_versions.*?"url"\s*:\s*"(https?:[^"]+)"`, anchored. -/
def matchVideoVersionsAt (s : List Char) : Option (List Char × List Char) :=
  match dropLit "video_versions".data s with
  | none => none
  | some r => lazyUrlTail (r.length + 1) r

/-- Lazy body `.+?` (with `s` flag, so any character) up to a
position where `close` succeeds: returns the consumed characters and
the remainder after `close`, shortest body first.  The caller consumes
the first (mandatory) character. -/
def lazyBodyF (close : List Char → Option (List Char)) :
    Nat → List Char → Option (List Char × List Char)
  | 0, _ => none
  | Nat.succ fuel, s =>
    match close s with
    | some r => some ([], r)
    | none =>
      match s with
      | [] => none
      | c :: t =>
        match lazyBodyF close fuel t with
        | some (x, r) => some (c :: x, r)
        | none => none

/-- Close of the sharedData pattern: `};<\/script>` (the `}` belongs to
the capture). -/
def closeShared (s : List Char) : Option (List Char) :=
  match s with
  | '\x7d' :: t => dropLit ";</script>".data t
  | _ => none

/-- Model of `window\._sharedData\s*=\s*({.+?});<\/script>` (with `s` flag),
anchored: returns the captured `{…}` blob. -/
def matchSharedDataAt (s : List Char) : Option (List Char × List Char) :=
  match dropLit "window._sharedData".data s with
  | none => none
  | some r1 =>
    match dropLit ['='] (r1.dropWhile isJsWs) with
    | none => none
    | some r2 =>
      match dropLit ['\x7b'] (r2.dropWhile isJsWs) with
      | none => none
      | some r3 =>
        match r3 with
        | [] => none
        | c0 :: t0 =>
          match lazyBodyF closeShared (t0.length + 1) t0 with
          | some (x, rest) => some ('\x7b' :: c0 :: (x ++ ['\x7d']), rest)
          | none => none

/-- Close of the additionalDataLoaded pattern: `}\s*\);<\/script>` (the
`}` belongs to the capture). -/
def closeAdditional (s : List Char) : Option (List Char) :=
  match s with
  | '\x7d' :: t => dropLit ");</script>".data (t.dropWhile isJsWs)
  | _ => none

/-- Model of `window\.__additionalDataLoaded\s*\([^,]*,\s*({.+?})\s*\);<\/script>`
(with `s` flag), anchored: returns the captured `{…}` blob. -/
def matchAdditionalDataAt (s : List Char) : Option (List Char × List Char) :=
  match dropLit "window.__additionalDataLoaded".data s with
  | none => none
  | some r1 =>
    match dropLit ['('] (r1.dropWhile isJsWs) with
    | none => none
    | some r2 =>
      match dropLit [','] (r2.dropWhile (fun c => c ≠ ',')) with
      | none => none
      | some r3 =>
        match dropLit ['\x7b'] (r3.dropWhile isJsWs) with
        | none => none
        | some r4 =>
          match r4 with
          | [] => none
          | c0 :: t0 =>
            match lazyBodyF closeAdditional (t0.length + 1) t0 with
            | some (x, rest) => some ('\x7b' :: c0 :: (x ++ ['\x7d']), rest)
            | none => none

/-- Leftmost match of an anchored matcher (non-global
`String.prototype.match`): try each start position left to right,
return the first capture. -/
def firstMatchAux (matchAt : List Char → Option (List Char × List Char)) :
    Nat → List Char → Option (List Char)
  | 0, _ => none
  | Nat.succ fuel, s =>
    match matchAt s with
    | some (cap, _) => some cap
    | none =>
      match s with
      | [] => none
      | _ :: t => firstMatchAux matchAt fuel t

def firstMatch (matchAt : List Char → Option (List Char × List Char))
    (s : List Char) : Option (List Char) :=
  firstMatchAux matchAt (s.length + 1) s

/-- All matches of a global pattern: emit the leftmost match, resume
after its end (`lastIndex` semantics of an `exec` loop). -/
def scanAllAux (matchAt : List Char → Option (List Char × List Char)) :
    Nat → List Char → List (List Char)
  | 0, _ => []
  | Nat.succ fuel, s =>
    match matchAt s with
    | some (cap, rest) => cap :: scanAllAux matchAt fuel rest
    | none =>
      match s with
      | [] => []
      | _ :: t => scanAllAux matchAt fuel t

def scanAll (matchAt : List Char → Option (List Char × List Char))
    (s : List Char) : List (List Char) :=
  scanAllAux matchAt (s.length + 1) s

/-! ## Strategy A — embedded JSON (`extractFromEmbeddedJson`,
src/server.js:123-154)

The `for (const pattern of patterns)` loop tries the three patterns in
order; a pattern that does not match, or whose JSON blob fails to parse
or contains no video (the `try { … } catch {}`), falls through to the
next pattern.  The direct `video_url` pattern decodes only `\u0026`
(line 139). -/

def stratAPattern1 (html : List Char) : Option ExtractResult :=
  match firstMatch matchSharedDataAt html with
  | none => none
  | some blob =>
    match jsonParse blob with
    | none => none
    | some data =>
      match findVideoInObject data 0 with
      | .error _ => none
      | .ok none => none
      | .ok (some s) =>
        if s ≠ [] then some { videoUrl := s, method := "embedded_json_parsed" }
        else none

def stratAPattern2 (html : List Char) : Option ExtractResult :=
  match firstMatch matchAdditionalDataAt html with
  | none => none
  | some blob =>
    match jsonParse blob with
    | none => none
    | some data =>
      match findVideoInObject data 0 with
      | .error _ => none
      | .ok none => none
      | .ok (some s) =>
        if s ≠ [] then some { videoUrl := s, method := "embedded_json_parsed" }
        else none

def stratAPattern3 (html : List Char) : Option ExtractResult :=
  match firstMatch (matchKeyUrlAt "video_url".data) html with
  | none => none
  | some cap => some { videoUrl := decodeAmp cap, method := "embedded_json_direct" }

def extractFromEmbeddedJson (html : List Char) : Option ExtractResult :=
  match stratAPattern1 html with
  | some r => some r
  | none =>
    match stratAPattern2 html with
    | some r => some r
    | none => stratAPattern3 html

/-! ## Strategy C — broad pattern scan (`extractFromGraphQL`,
src/server.js:180-207) -/

/-- The candidates list: every match of the three global patterns, in
pattern order then document order, each escape-decoded as pushed. -/
def gqlCandidates (html : List Char) : List (List Char) :=
  (scanAll (matchKeyUrlAt "video_url".data) html).map decodeAmpSlash ++
    (scanAll matchContentUrlAt html).map decodeAmpSlash ++
    (scanAll matchVideoVersionsAt html).map decodeAmpSlash

/-- Model of `candidates.sort((a, b) => b.length - a.length)[0]` picks the first
longest candidate (stable sort). -/
def extractFromGraphQL (html : List Char) : Option ExtractResult :=
  match gqlCandidates html with
  | [] => none
  | c :: cs =>
    match firstMaxBy List.length (c :: cs) with
    | some best => some { videoUrl := best, method := "graphql_regex" }
    | none => none

/-! ## Extraction orchestrator (`extractVideoUrl`,
src/server.js:237-259)

The document is the fetched page; its JSDOM meta-tag parse (used only by
Strategy B) is carried alongside the raw text. -/

structure Document where
  html : List Char
  metas : List MetaTag
deriving Repr

structure ExtractionError where
  message : String
deriving DecidableEq, Repr

def extractionFailedMessage : String :=
  "Could not extract video. The post may be private, image-only, or Instagram blocked the request."

/-- The `for (const strategy of strategies) { try { … } catch { … } }`
loop: a strategy outcome is either a thrown exception (caught, logged,
chain continues), or `null`/a result; a result is returned only when
`result?.videoUrl` is truthy. -/
def extractChain : List (Except String (Option ExtractResult)) → Option ExtractResult
  | [] => none
  | outcome :: rest =>
    match outcome with
    | .ok (some r) => if r.videoUrl ≠ [] then some r else extractChain rest
    | .ok none => extractChain rest
    | .error _ => extractChain rest

/-- The three strategy outcomes for a document, in chain order (the
embedded strategies are total functions here, so none of them throws). -/
def strategyOutcomes (d : Document) : List (Except String (Option ExtractResult)) :=
  [.ok (extractFromEmbeddedJson d.html),
   .ok (extractFromOpenGraph d.metas),
   .ok (extractFromGraphQL d.html)]

/-- Run the chain over given per-strategy outcomes and, when it
produces nothing, throw the fixed extraction-failed error (the per-
strategy outcomes are only `console.warn`-logged, never attached to the
thrown error). -/
def extractVideoUrlFromOutcomes
    (outcomes : List (Except String (Option ExtractResult))) :
    Except ExtractionError ExtractResult :=
  match extractChain outcomes with
  | some r => .ok r
  | none => .error { message := extractionFailedMessage }

/-- Model of `extractVideoUrl` on an already-fetched document. -/
def extractVideoUrl (d : Document) : Except ExtractionError ExtractResult :=
  extractVideoUrlFromOutcomes (strategyOutcomes d)

/-! ## Media streamer (`GET /api/stream`, src/server.js:304-356)

Discrete-time model of the handler on an accepted URL.  The upstream's
behaviour is: the time at which its response (headers) resolves the
`fetch`, its `ok` flag, its body chunks with arrival times, and whether
the connection is lost before a clean end of stream. -/

structure UpstreamChunk where
  arrival : Nat
  bytes : List Nat
deriving DecidableEq, Repr

structure UpstreamBehavior where
  headersAt : Nat
  ok : Bool
  chunks : List UpstreamChunk
  lost : Bool
deriving DecidableEq, Repr

inductive StreamOutcome where
  | fetchFailed : StreamOutcome
  | badGateway : StreamOutcome
  | streamed : List Nat → StreamOutcome
  | abortedMid : List Nat → StreamOutcome
deriving DecidableEq, Repr

def STREAM_TIMEOUT_MS : Nat := 60000

/-- The stream handler past validation: `setTimeout(…, 60000)` arms an
abort timer; `await fetch` resolves when the upstream's headers arrive
(the abort fires first iff that takes longer than the deadline);
`clearTimeout` then disarms the timer BEFORE the body is pumped, so the
pump loop runs without any deadline and its result does not depend on
when the chunks arrive.  A connection lost mid-body makes `read()`
reject after the headers were already sent (the response is terminated;
no error payload can follow). -/
def streamUpstream (u : UpstreamBehavior) : StreamOutcome :=
  if STREAM_TIMEOUT_MS < u.headersAt then .fetchFailed
  else if !u.ok then .badGateway
  else if u.lost then .abortedMid (u.chunks.map UpstreamChunk.bytes).flatten
  else .streamed (u.chunks.map UpstreamChunk.bytes).flatten

/-- End time of the whole transfer: when the last chunk arrived. -/
def lastChunkAt (u : UpstreamBehavior) : Nat :=
  (u.chunks.map UpstreamChunk.arrival).foldr max u.headersAt

/-! ## Stream input validation (src/server.js:306-321)

`if (!url || !url.startsWith('https://')) → 400`; an accepted `url` is
passed to `fetch(url, …)` verbatim — no host restriction. -/

/-- Model of `!(!url || !url.startsWith('https://'))` for a present query-string
`url` (an empty string is falsy and also fails the literal check). -/
def streamAccepts (url : List Char) : Bool :=
  !url.isEmpty && (dropLit "https://".data url).isSome

/-- The upstream request the handler opens: exactly the given URL, iff
accepted. -/
def streamUpstreamTarget (url : List Char) : Option (List Char) :=
  if streamAccepts url then some url else none


/-! ## Concrete example inputs used by the claim theorems -/

def c8Upstream : UpstreamBehavior :=
  { headersAt := 1000, ok := true,
    chunks := [{ arrival := 1000000000, bytes := [1, 2, 3] }], lost := false }

def c2OutcomesA : List (Except String (Option ExtractResult)) :=
  [.ok none, .ok none, .ok none]

def c2OutcomesB : List (Except String (Option ExtractResult)) :=
  [.error "SyntaxError", .ok none, .ok none]

def c6Metas : List MetaTag :=
  [{ property := "og:video".data, content := [] },
   { property := "og:video:url".data, content := "X".data }]

def c3Entry : JsonVal := .obj [("width".data, .num 5), ("url".data, .str "Y".data)]

def c3CexFields : List (List Char × JsonVal) :=
  [("video_url".data, .str "X".data), ("video_versions".data, .arr [c3Entry])]

def c3ExampleEntries : List JsonVal :=
  [.obj [("width".data, .num 480), ("url".data, .str "U1".data)],
   .obj [("width".data, .num 1080), ("url".data, .str "U2".data)]]

def c3ExampleFields : List (List Char × JsonVal) :=
  [("video_versions".data, .arr c3ExampleEntries)]

def c4Doc : List Char :=
  "\"video_url\":\"https://ab\" \"video_url\":\"https://cd\"".data

def c1Res : ExtractResult := { videoUrl := "https://v".data, method := "opengraph" }

def c1Html : List Char := "window._sharedData = \x7b\"a\":\x7d;</script>".data

def c1Blob : List Char := "\x7b\"a\":\x7d".data

def c5Html : List Char := "\"video_url\":\"https:\\/\\/cdn\\u0026x\"".data

/-! ## Generic lemmas -/

theorem firstMaxBy_mem {α β : Type} [LinearOrder β] (key : α → β) :
    ∀ (l : List α) (r : α), firstMaxBy key l = some r → r ∈ l := by
  intro l
  induction l with
  | nil => intro r h; simp [firstMaxBy] at h
  | cons x t ih =>
    intro r h
    simp only [firstMaxBy] at h
    cases ht : firstMaxBy key t with
    | none => rw [ht] at h; simp at h; simp [h]
    | some y =>
      rw [ht] at h
      simp only at h
      split at h
      · simp at h; subst h; exact List.mem_cons_of_mem _ (ih _ ht)
      · simp at h; simp [h]

theorem firstMaxBy_is_max {α β : Type} [LinearOrder β] (key : α → β) :
    ∀ (l : List α) (r : α), firstMaxBy key l = some r →
      ∀ b ∈ l, key b ≤ key r := by
  intro l
  induction l with
  | nil => intro r h; simp [firstMaxBy] at h
  | cons x t ih =>
    intro r h b hb
    simp only [firstMaxBy] at h
    cases ht : firstMaxBy key t with
    | none =>
      rw [ht] at h; simp at h; subst h
      cases t with
      | nil => simp at hb; simp [hb]
      | cons y t' => simp [firstMaxBy] at ht; cases hy : firstMaxBy key t' <;>
          rw [hy] at ht <;> simp at ht <;> split at ht <;> simp_all
    | some y =>
      rw [ht] at h
      simp only at h
      rcases List.mem_cons.mp hb with hbx | hbt
      · subst hbx
        split at h
        · simp at h; subst h; exact le_of_lt (by assumption)
        · simp at h; subst h; exact le_refl _
      · have hby := ih y ht b hbt
        split at h
        · simp at h; subst h; exact hby
        · simp at h; subst h; exact le_trans hby (not_lt.mp (by assumption))

theorem firstMaxBy_cons_isSome {α β : Type} [LinearOrder β] (key : α → β)
    (x : α) (t : List α) : (firstMaxBy key (x :: t)).isSome := by
  simp only [firstMaxBy]
  cases firstMaxBy key t with
  | none => simp
  | some y => simp only; split <;> simp

theorem find?_congr_mem {α : Type} (p q : α → Bool) :
    ∀ (l : List α), (∀ a ∈ l, p a = q a) → l.find? p = l.find? q := by
  intro l
  induction l with
  | nil => intro _; rfl
  | cons x t ih =>
    intro h
    have hx := h x (List.mem_cons_self x t)
    simp only [List.find?]
    rw [hx]
    cases q x with
    | true => rfl
    | false => exact ih (fun a ha => h a (List.mem_cons_of_mem _ ha))

theorem firstMaxBy_cons {α β : Type} [LinearOrder β] (key : α → β)
    (x : α) (t : List α) :
    firstMaxBy key (x :: t) =
      match firstMaxBy key t with
      | none => some x
      | some r => if key x < key r then some r else some x := rfl

theorem firstMaxBy_cons_some {α β : Type} [LinearOrder β] {key : α → β}
    {x : α} {t : List α} {r : α} (h : firstMaxBy key t = some r) :
    firstMaxBy key (x :: t) = if key x < key r then some r else some x := by
  rw [firstMaxBy_cons, h]

/-- The head of the stable descending sort is the first element whose
key is maximal over the whole list. -/
theorem firstMaxBy_eq_find? {α β : Type} [LinearOrder β] (key : α → β) :
    ∀ (l : List α),
      firstMaxBy key l = l.find? (fun a => decide (∀ b ∈ l, key b ≤ key a)) := by
  intro l
  induction l with
  | nil => rfl
  | cons x t ih =>
    cases t with
    | nil => simp [firstMaxBy, List.find?]
    | cons y t' =>
      have hsome := firstMaxBy_cons_isSome key y t'
      cases ht : firstMaxBy key (y :: t') with
      | none => rw [ht] at hsome; simp at hsome
      | some r =>
        have hrmem := firstMaxBy_mem key _ _ ht
        have hrmax := firstMaxBy_is_max key _ _ ht
        rw [firstMaxBy_cons_some ht]
        by_cases hlt : key x < key r
        · have hpx : (decide (∀ b ∈ x :: y :: t', key b ≤ key x)) = false := by
            simp only [decide_eq_false_iff_not]
            intro hall
            exact absurd (hall r (List.mem_cons_of_mem _ hrmem)) (not_le.mpr hlt)
          rw [if_pos hlt, List.find?_cons_of_neg _ (by simp_all), ← ht, ih]
          apply find?_congr_mem
          intro a ha
          by_cases hq : ∀ b ∈ y :: t', key b ≤ key a
          · have hp : ∀ b ∈ x :: y :: t', key b ≤ key a := by
              intro b hb
              rcases List.mem_cons.mp hb with hbx | hbt
              · subst hbx; exact le_trans (le_of_lt hlt) (hq r hrmem)
              · exact hq b hbt
            rw [decide_eq_true hp, decide_eq_true hq]
          · have hp : ¬ ∀ b ∈ x :: y :: t', key b ≤ key a := by
              intro hall
              exact hq (fun b hb => hall b (List.mem_cons_of_mem _ hb))
            rw [decide_eq_false hp, decide_eq_false hq]
        · have hrx : key r ≤ key x := not_lt.mp hlt
          have hpx : ∀ b ∈ x :: y :: t', key b ≤ key x := by
            intro b hb
            rcases List.mem_cons.mp hb with hbx | hbt
            · subst hbx; exact le_refl _
            · exact le_trans (hrmax b hbt) hrx
          rw [if_neg hlt, List.find?_cons_of_pos _ (by simp_all)]

/-! ## Capture and chain lemmas -/

theorem replaceLit_cons_of_ne {p : Char} {ps rep : List Char} {c : Char}
    {t : List Char} (hc : c ≠ p) :
    replaceLit (p :: ps) rep (c :: t) = c :: replaceLit (p :: ps) rep t := by
  have hd : dropLit (p :: ps) (c :: t) = none := by simp [dropLit, hc]
  show replaceLitAux (p :: ps) rep (c :: t).length (c :: t) =
    c :: replaceLitAux (p :: ps) rep t.length t
  rw [List.length_cons]
  simp only [replaceLitAux]
  rw [hd]

theorem decodeAmp_cons_h (t : List Char) :
    decodeAmp ('h' :: t) = 'h' :: decodeAmp t :=
  replaceLit_cons_of_ne (by decide)

theorem decodeAmpSlash_cons_h (t : List Char) :
    ∃ u, decodeAmpSlash ('h' :: t) = 'h' :: u := by
  unfold decodeAmpSlash
  rw [decodeAmp_cons_h]
  exact ⟨_, replaceLit_cons_of_ne (by decide)⟩

theorem captureUrlParts_shape {s sch body rest : List Char}
    (h : captureUrlParts s = some (sch, body, rest)) :
    (sch = "https:".data ∨ sch = "http:".data) ∧ body ≠ [] := by
  unfold captureUrlParts at h
  cases h1 : dropLit "https:".data s with
  | some r =>
    rw [h1] at h
    simp only at h
    cases h2 : r.takeWhile (fun c => c ≠ '"') with
    | nil => rw [h2] at h; simp at h
    | cons b bs =>
      rw [h2] at h
      simp only at h
      split at h
      · simp at h
        obtain ⟨hs, hb, _⟩ := h
        exact ⟨Or.inl hs.symm, by simp [← hb]⟩
      · simp at h
  | none =>
    rw [h1] at h
    simp only at h
    cases h1b : dropLit "http:".data s with
    | some r =>
      rw [h1b] at h
      simp only at h
      cases h2 : r.takeWhile (fun c => c ≠ '"') with
      | nil => rw [h2] at h; simp at h
      | cons b bs =>
        rw [h2] at h
        simp only at h
        split at h
        · simp at h
          obtain ⟨hs, hb, _⟩ := h
          exact ⟨Or.inr hs.symm, by simp [← hb]⟩
        · simp at h
    | none => rw [h1b] at h; simp at h

theorem matchKeyUrlAt_capture {key s cap rest : List Char}
    (h : matchKeyUrlAt key s = some (cap, rest)) : ∃ t, cap = 'h' :: t := by
  unfold matchKeyUrlAt at h
  split at h
  · exact absurd h (by simp)
  · split at h
    · exact absurd h (by simp)
    · split at h
      · exact absurd h (by simp)
      · split at h
        · rename_i scheme body rest2 hcap
          simp only [Option.some.injEq, Prod.mk.injEq] at h
          obtain ⟨hc, _⟩ := h
          obtain ⟨hs, _⟩ := captureUrlParts_shape hcap
          rcases hs with hs | hs <;> subst hs <;> exact ⟨_, hc.symm⟩
        · exact absurd h (by simp)

theorem matchContentUrlAt_capture {s cap rest : List Char}
    (h : matchContentUrlAt s = some (cap, rest)) : ∃ t, cap = 'h' :: t := by
  unfold matchContentUrlAt at h
  split at h
  · exact absurd h (by simp)
  · split at h
    · exact absurd h (by simp)
    · split at h
      · exact absurd h (by simp)
      · split at h
        · rename_i scheme body rest2 hcap
          split at h
          · simp only [Option.some.injEq, Prod.mk.injEq] at h
            obtain ⟨hc, _⟩ := h
            obtain ⟨hs, _⟩ := captureUrlParts_shape hcap
            rcases hs with hs | hs <;> subst hs <;> exact ⟨_, hc.symm⟩
          · exact absurd h (by simp)
        · exact absurd h (by simp)

theorem lazyUrlTail_zero (s : List Char) : lazyUrlTail 0 s = none := rfl

theorem lazyUrlTail_succ (f : Nat) (s : List Char) :
    lazyUrlTail (Nat.succ f) s =
      match matchKeyUrlAt "url".data s with
      | some r => some r
      | none =>
        match s with
        | [] => none
        | c :: t => if isDotChar c then lazyUrlTail f t else none := rfl

theorem scanAllAux_zero (matchAt : List Char → Option (List Char × List Char))
    (s : List Char) : scanAllAux matchAt 0 s = [] := rfl

theorem scanAllAux_succ (matchAt : List Char → Option (List Char × List Char))
    (f : Nat) (s : List Char) :
    scanAllAux matchAt (Nat.succ f) s =
      match matchAt s with
      | some (cap, rest) => cap :: scanAllAux matchAt f rest
      | none =>
        match s with
        | [] => []
        | _ :: t => scanAllAux matchAt f t := rfl

theorem firstMatchAux_zero (matchAt : List Char → Option (List Char × List Char))
    (s : List Char) : firstMatchAux matchAt 0 s = none := rfl

theorem firstMatchAux_succ (matchAt : List Char → Option (List Char × List Char))
    (f : Nat) (s : List Char) :
    firstMatchAux matchAt (Nat.succ f) s =
      match matchAt s with
      | some (cap, _) => some cap
      | none =>
        match s with
        | [] => none
        | _ :: t => firstMatchAux matchAt f t := rfl

theorem lazyUrlTail_capture :
    ∀ (fuel : Nat) (s cap rest : List Char),
      lazyUrlTail fuel s = some (cap, rest) → ∃ t, cap = 'h' :: t := by
  intro fuel
  induction fuel with
  | zero => intro s cap rest h; simp [lazyUrlTail] at h
  | succ f ih =>
    intro s cap rest h
    rw [lazyUrlTail_succ] at h
    cases hm : matchKeyUrlAt "url".data s with
    | some pr =>
      rw [hm] at h
      simp only [Option.some.injEq] at h
      subst h
      exact matchKeyUrlAt_capture (by rw [hm])
    | none =>
      rw [hm] at h
      simp only at h
      cases s with
      | nil => simp at h
      | cons c t =>
        simp only at h
        split at h
        · exact ih t cap rest h
        · simp at h

theorem matchVideoVersionsAt_capture {s cap rest : List Char}
    (h : matchVideoVersionsAt s = some (cap, rest)) : ∃ t, cap = 'h' :: t := by
  unfold matchVideoVersionsAt at h
  split at h
  · exact absurd h (by simp)
  · exact lazyUrlTail_capture _ _ _ _ h

theorem scanAllAux_forall {matchAt : List Char → Option (List Char × List Char)}
    {P : List Char → Prop}
    (hm : ∀ s cap rest, matchAt s = some (cap, rest) → P cap) :
    ∀ (fuel : Nat) (s : List Char), ∀ cap ∈ scanAllAux matchAt fuel s, P cap := by
  intro fuel
  induction fuel with
  | zero => intro s cap h; simp [scanAllAux] at h
  | succ f ih =>
    intro s cap h
    rw [scanAllAux_succ] at h
    cases hma : matchAt s with
    | some pr =>
      rw [hma] at h
      obtain ⟨c0, r0⟩ := pr
      simp only [List.mem_cons] at h
      rcases h with h | h
      · subst h; exact hm s _ _ hma
      · exact ih r0 cap h
    | none =>
      rw [hma] at h
      simp only at h
      cases s with
      | nil => simp at h
      | cons c t => exact ih t cap h

theorem firstMatchAux_forall {matchAt : List Char → Option (List Char × List Char)}
    {P : List Char → Prop}
    (hm : ∀ s cap rest, matchAt s = some (cap, rest) → P cap) :
    ∀ (fuel : Nat) (s cap : List Char),
      firstMatchAux matchAt fuel s = some cap → P cap := by
  intro fuel
  induction fuel with
  | zero => intro s cap h; simp [firstMatchAux] at h
  | succ f ih =>
    intro s cap h
    rw [firstMatchAux_succ] at h
    cases hma : matchAt s with
    | some pr =>
      rw [hma] at h
      obtain ⟨c0, r0⟩ := pr
      simp only [Option.some.injEq] at h
      subst h
      exact hm s _ _ hma
    | none =>
      rw [hma] at h
      simp only at h
      cases s with
      | nil => simp at h
      | cons c t => exact ih t cap h

theorem gqlCandidates_head_h (html : List Char) :
    ∀ cap ∈ gqlCandidates html, ∃ t, cap = 'h' :: t := by
  intro cap hc
  unfold gqlCandidates at hc
  simp only [List.mem_append, List.mem_map] at hc
  rcases hc with (⟨c0, hc0, hdec⟩ | ⟨c0, hc0, hdec⟩) | ⟨c0, hc0, hdec⟩
  · obtain ⟨t, ht⟩ := scanAllAux_forall
      (fun s c r h => matchKeyUrlAt_capture h) _ _ c0 hc0
    subst ht
    obtain ⟨u, hu⟩ := decodeAmpSlash_cons_h t
    exact ⟨u, by rw [← hdec, hu]⟩
  · obtain ⟨t, ht⟩ := scanAllAux_forall
      (fun s c r h => matchContentUrlAt_capture h) _ _ c0 hc0
    subst ht
    obtain ⟨u, hu⟩ := decodeAmpSlash_cons_h t
    exact ⟨u, by rw [← hdec, hu]⟩
  · obtain ⟨t, ht⟩ := scanAllAux_forall
      (fun s c r h => matchVideoVersionsAt_capture h) _ _ c0 hc0
    subst ht
    obtain ⟨u, hu⟩ := decodeAmpSlash_cons_h t
    exact ⟨u, by rw [← hdec, hu]⟩

theorem extractFromGraphQL_ne_nil {html : List Char} {r : ExtractResult}
    (h : extractFromGraphQL html = some r) : r.videoUrl ≠ [] := by
  unfold extractFromGraphQL at h
  cases hc : gqlCandidates html with
  | nil => rw [hc] at h; simp at h
  | cons c cs =>
    rw [hc] at h
    simp only at h
    cases hb : firstMaxBy List.length (c :: cs) with
    | none => rw [hb] at h; simp at h
    | some best =>
      rw [hb] at h
      simp only [Option.some.injEq] at h
      have hmem : best ∈ gqlCandidates html := by
        rw [hc]; exact firstMaxBy_mem _ _ _ hb
      obtain ⟨t, ht⟩ := gqlCandidates_head_h html best hmem
      subst h
      simp [ht]

theorem extractFromOpenGraph_ne_nil {metas : List MetaTag} {r : ExtractResult}
    (h : extractFromOpenGraph metas = some r) : r.videoUrl ≠ [] := by
  unfold extractFromOpenGraph at h
  split at h
  · rename_i t
    split at h
    · simp only [Option.some.injEq] at h
      subst h
      simpa using by assumption
    · simp at h
  · simp at h

theorem stratAPattern1_shape {html : List Char} {r : ExtractResult}
    (h : stratAPattern1 html = some r) :
    r.videoUrl ≠ [] ∧ r.method = "embedded_json_parsed" := by
  unfold stratAPattern1 at h
  split at h
  · exact absurd h (by simp)
  · split at h
    · exact absurd h (by simp)
    · split at h
      · exact absurd h (by simp)
      · exact absurd h (by simp)
      · rename_i s _
        split at h
        · simp only [Option.some.injEq] at h
          subst h
          exact ⟨by simpa using by assumption, rfl⟩
        · exact absurd h (by simp)

theorem stratAPattern2_shape {html : List Char} {r : ExtractResult}
    (h : stratAPattern2 html = some r) :
    r.videoUrl ≠ [] ∧ r.method = "embedded_json_parsed" := by
  unfold stratAPattern2 at h
  split at h
  · exact absurd h (by simp)
  · split at h
    · exact absurd h (by simp)
    · split at h
      · exact absurd h (by simp)
      · exact absurd h (by simp)
      · rename_i s _
        split at h
        · simp only [Option.some.injEq] at h
          subst h
          exact ⟨by simpa using by assumption, rfl⟩
        · exact absurd h (by simp)

theorem stratAPattern3_shape {html : List Char} {r : ExtractResult}
    (h : stratAPattern3 html = some r) :
    r.videoUrl ≠ [] ∧ r.method = "embedded_json_direct" := by
  unfold stratAPattern3 at h
  cases hm : firstMatch (matchKeyUrlAt "video_url".data) html with
  | none => rw [hm] at h; simp at h
  | some cap =>
    rw [hm] at h
    simp only [Option.some.injEq] at h
    subst h
    have : ∃ t, cap = 'h' :: t :=
      firstMatchAux_forall (fun s c r hh => matchKeyUrlAt_capture hh) _ _ _ hm
    obtain ⟨t, ht⟩ := this
    subst ht
    exact ⟨by simp [decodeAmp_cons_h], rfl⟩

theorem extractFromEmbeddedJson_ne_nil {html : List Char} {r : ExtractResult}
    (h : extractFromEmbeddedJson html = some r) : r.videoUrl ≠ [] := by
  unfold extractFromEmbeddedJson at h
  cases h1 : stratAPattern1 html with
  | some r1 =>
    rw [h1] at h; simp only [Option.some.injEq] at h; subst h
    exact (stratAPattern1_shape h1).1
  | none =>
    rw [h1] at h
    simp only at h
    cases h2 : stratAPattern2 html with
    | some r2 =>
      rw [h2] at h; simp only [Option.some.injEq] at h; subst h
      exact (stratAPattern2_shape h2).1
    | none =>
      rw [h2] at h
      simp only at h
      exact (stratAPattern3_shape h).1

theorem extractChain_error_skip (e : String) :
    ∀ (pre post : List (Except String (Option ExtractResult))),
      extractChain (pre ++ .error e :: post) = extractChain (pre ++ post) := by
  intro pre
  induction pre with
  | nil => intro post; simp [extractChain]
  | cons o pre ih =>
    intro post
    cases o with
    | ok oo =>
      cases oo with
      | some r =>
        simp only [List.cons_append, extractChain]
        split
        · rfl
        · exact ih post
      | none => simp only [List.cons_append, extractChain]; exact ih post
    | error e2 => simp only [List.cons_append, extractChain]; exact ih post

theorem extractChain_ok_some {r : ExtractResult} (hr : r.videoUrl ≠ [])
    (rest : List (Except String (Option ExtractResult))) :
    extractChain (.ok (some r) :: rest) = some r := by
  simp [extractChain, hr]

theorem extractChain_ok_none (rest : List (Except String (Option ExtractResult))) :
    extractChain (.ok none :: rest) = extractChain rest := rfl

theorem extractChain_nil : extractChain [] = none := rfl

/-- Orchestrator order (shared helper): the chain returns the first
strategy's result that is non-null with a truthy `videoUrl` (every
strategy result has one), in the fixed order A, B, C, and throws the
fixed error when all three miss. -/
theorem extractVideoUrl_order (d : Document) :
    extractVideoUrl d =
      match extractFromEmbeddedJson d.html with
      | some r => .ok r
      | none =>
        match extractFromOpenGraph d.metas with
        | some r => .ok r
        | none =>
          match extractFromGraphQL d.html with
          | some r => .ok r
          | none => .error { message := extractionFailedMessage } := by
  unfold extractVideoUrl extractVideoUrlFromOutcomes strategyOutcomes
  cases hA : extractFromEmbeddedJson d.html with
  | some r =>
    rw [extractChain_ok_some (extractFromEmbeddedJson_ne_nil hA)]
  | none =>
    rw [extractChain_ok_none]
    cases hB : extractFromOpenGraph d.metas with
    | some r =>
      rw [extractChain_ok_some (extractFromOpenGraph_ne_nil hB)]
    | none =>
      rw [extractChain_ok_none]
      cases hC : extractFromGraphQL d.html with
      | some r =>
        rw [extractChain_ok_some (extractFromGraphQL_ne_nil hC)]
      | none => rw [extractChain_ok_none, extractChain_nil]

/-! ## Claim C10 -/

/-- C10: the stream endpoint's validation checks only the literal
prefix — it rejects exactly when the query url does not start with
`https://` (so the bare string `https://` passes), and an accepted url
is opened upstream verbatim, any host included. -/
theorem C10_theorem :
    (∀ url : List Char,
      streamAccepts url = true ↔ (dropLit "https://".data url).isSome = true) ∧
    streamAccepts "https://".data = true ∧
    (∀ url : List Char, streamAccepts url = true →
      streamUpstreamTarget url = some url) ∧
    streamUpstreamTarget "https://evil.example/video".data =
      some "https://evil.example/video".data := by
  refine ⟨?_, by decide, ?_, by decide⟩
  · intro url
    cases url with
    | nil => decide
    | cons c t => simp [streamAccepts]
  · intro url h
    simp [streamUpstreamTarget, h]

/-- Witness for C10 at a concrete url of a non-CDN host. -/
theorem C10_witness :
    streamUpstreamTarget "https://example.org/a.mp4".data =
      some "https://example.org/a.mp4".data :=
  C10_theorem.2.2.1 "https://example.org/a.mp4".data (by decide)

/-! ## Claim C8 -/

/-- C8 counterexample: an upstream whose headers arrive at 1 s but whose
single body chunk arrives only after 10^9 ms (far beyond the 60 s
deadline) still completes successfully — the transfer is NOT bounded by
the 60-second deadline, because `clearTimeout` runs before the body is
pumped. -/
theorem C8_counterexample :
    streamUpstream c8Upstream = .streamed [1, 2, 3] ∧
    STREAM_TIMEOUT_MS < lastChunkAt c8Upstream := by
  constructor
  · rfl
  · decide

/-- C8 (amended): the 60-second deadline bounds only the wait for the
upstream response headers (exceeding it aborts the fetch); a connection
lost mid-body terminates the stream; and once the headers have arrived
the outcome is independent of the chunks' arrival times — the body
transfer has no deadline. -/
theorem C8_amended :
    (∀ u : UpstreamBehavior, STREAM_TIMEOUT_MS < u.headersAt →
      streamUpstream u = .fetchFailed) ∧
    (∀ u : UpstreamBehavior, u.headersAt ≤ STREAM_TIMEOUT_MS → u.ok = true →
      u.lost = true →
      streamUpstream u = .abortedMid (u.chunks.map UpstreamChunk.bytes).flatten) ∧
    (∀ u u' : UpstreamBehavior, u.headersAt = u'.headersAt → u.ok = u'.ok →
      u.lost = u'.lost →
      u.chunks.map UpstreamChunk.bytes = u'.chunks.map UpstreamChunk.bytes →
      streamUpstream u = streamUpstream u') := by
  refine ⟨?_, ?_, ?_⟩
  · intro u h
    simp [streamUpstream, h]
  · intro u h hok hlost
    simp [streamUpstream, Nat.not_lt.mpr h, hok, hlost]
  · intro u u' h1 h2 h3 h4
    simp only [streamUpstream, h1, h2, h3, h4]

/-- Witness for C8 (amended) at concrete upstream behaviours. -/
theorem C8_witness :
    streamUpstream ⟨60001, true, [], false⟩ = .fetchFailed ∧
    streamUpstream ⟨5, true, [⟨6, [9]⟩], true⟩ = .abortedMid [9] :=
  ⟨C8_amended.1 _ (by decide), C8_amended.2.1 _ (by decide) (by decide) (by decide)⟩

/-! ## Claim C2 -/

/-- C2 counterexample: two different ordered per-strategy outcome lists
(all-missed vs. first-strategy-threw) produce the very same error
value, so the error value cannot carry the ordered list of per-strategy
outcomes — it consists of the fixed human-readable message only. -/
theorem C2_counterexample :
    extractVideoUrlFromOutcomes c2OutcomesA =
        .error { message := extractionFailedMessage } ∧
    extractVideoUrlFromOutcomes c2OutcomesB =
        .error { message := extractionFailedMessage } ∧
    c2OutcomesA ≠ c2OutcomesB := by
  refine ⟨rfl, rfl, ?_⟩
  intro h
  simp [c2OutcomesA, c2OutcomesB] at h

/-- C2 (amended): extraction fails exactly when all three strategies
miss, and the error then carries only the fixed human-readable message
(naming possible causes without asserting one); the per-strategy
outcomes are logged, not carried in the error value. -/
theorem C2_amended (d : Document) :
    ((∃ err, extractVideoUrl d = .error err) ↔
      (extractFromEmbeddedJson d.html = none ∧
        extractFromOpenGraph d.metas = none ∧
        extractFromGraphQL d.html = none)) ∧
    (∀ err, extractVideoUrl d = .error err →
      err.message = extractionFailedMessage) := by
  cases hA : extractFromEmbeddedJson d.html with
  | some r =>
    have hok : extractVideoUrl d = .ok r := by rw [extractVideoUrl_order d, hA]
    refine ⟨⟨?_, ?_⟩, ?_⟩
    · rintro ⟨err, herr⟩
      rw [hok] at herr
      exact absurd herr (by simp)
    · rintro ⟨h1, _, _⟩
      exact Option.noConfusion h1
    · intro err herr
      rw [hok] at herr
      exact absurd herr (by simp)
  | none =>
    cases hB : extractFromOpenGraph d.metas with
    | some r =>
      have hok : extractVideoUrl d = .ok r := by
        rw [extractVideoUrl_order d, hA, hB]
      refine ⟨⟨?_, ?_⟩, ?_⟩
      · rintro ⟨err, herr⟩
        rw [hok] at herr
        exact absurd herr (by simp)
      · rintro ⟨_, h2, _⟩
        exact Option.noConfusion h2
      · intro err herr
        rw [hok] at herr
        exact absurd herr (by simp)
    | none =>
      cases hC : extractFromGraphQL d.html with
      | some r =>
        have hok : extractVideoUrl d = .ok r := by
          rw [extractVideoUrl_order d, hA, hB, hC]
        refine ⟨⟨?_, ?_⟩, ?_⟩
        · rintro ⟨err, herr⟩
          rw [hok] at herr
          exact absurd herr (by simp)
        · rintro ⟨_, _, h3⟩
          exact Option.noConfusion h3
        · intro err herr
          rw [hok] at herr
          exact absurd herr (by simp)
      | none =>
        have herr0 : extractVideoUrl d = .error { message := extractionFailedMessage } := by
          rw [extractVideoUrl_order d, hA, hB, hC]
        refine ⟨⟨fun _ => ⟨rfl, rfl, rfl⟩, fun _ => ⟨_, herr0⟩⟩, ?_⟩
        intro err herr
        rw [herr0] at herr
        simp only [Except.error.injEq] at herr
        rw [← herr]

/-- Witness for C2 (amended) at a document on which every strategy
misses. -/
theorem C2_witness :
    (∃ err, extractVideoUrl { html := "nothing here".data, metas := [] } =
      .error err) ∧
    (∀ err, extractVideoUrl { html := "nothing here".data, metas := [] } =
        .error err → err.message = extractionFailedMessage) :=
  ⟨(C2_amended _).1.mpr (by refine ⟨?_, rfl, ?_⟩ <;> decide),
   (C2_amended _).2⟩

/-! ## Claim C6 -/

/-- C6 counterexample: a document whose `og:video` tag has no/empty
content but whose `og:video:url` tag carries `X` yields "no match" —
the `||` chain selects the first *element* in preference order and only
then checks its content, so a present `og:video:url` tag is ignored,
refuting "returns no match only when none of the three tags are
present". -/
theorem C6_counterexample :
    extractFromOpenGraph c6Metas = none ∧
    querySelectorMeta "og:video:url".data c6Metas =
      some { property := "og:video:url".data, content := "X".data } := by
  refine ⟨rfl, by decide⟩

/-- C6 (amended): Strategy B selects the first meta tag *element*
present in the preference order `og:video`, `og:video:url`,
`og:video:secure_url`, and returns its content iff that content is
non-empty — a present-but-empty preferred tag yields "no match" without
consulting the later tags; "no match" also results when none of the
three tags is present.  In particular a document containing only an
`og:video` tag with value `X` yields `{X, opengraph}`. -/
theorem C6_amended :
    (∀ (metas : List MetaTag) (t : MetaTag),
      querySelectorMeta "og:video".data metas = some t →
      extractFromOpenGraph metas =
        (if t.content = [] then none
         else some { videoUrl := t.content, method := "opengraph" })) ∧
    (∀ (metas : List MetaTag) (t : MetaTag),
      querySelectorMeta "og:video".data metas = none →
      querySelectorMeta "og:video:url".data metas = some t →
      extractFromOpenGraph metas =
        (if t.content = [] then none
         else some { videoUrl := t.content, method := "opengraph" })) ∧
    (∀ (metas : List MetaTag) (t : MetaTag),
      querySelectorMeta "og:video".data metas = none →
      querySelectorMeta "og:video:url".data metas = none →
      querySelectorMeta "og:video:secure_url".data metas = some t →
      extractFromOpenGraph metas =
        (if t.content = [] then none
         else some { videoUrl := t.content, method := "opengraph" })) ∧
    (∀ metas : List MetaTag,
      querySelectorMeta "og:video".data metas = none →
      querySelectorMeta "og:video:url".data metas = none →
      querySelectorMeta "og:video:secure_url".data metas = none →
      extractFromOpenGraph metas = none) ∧
    extractFromOpenGraph [{ property := "og:video".data, content := "X".data }] =
      some { videoUrl := "X".data, method := "opengraph" } := by
  refine ⟨?_, ?_, ?_, ?_, by decide⟩
  · intro metas t h1
    simp only [extractFromOpenGraph, h1]
    by_cases hc : t.content = []
    · simp [hc]
    · simp [hc]
  · intro metas t h1 h2
    simp only [extractFromOpenGraph, h1, h2]
    by_cases hc : t.content = []
    · simp [hc]
    · simp [hc]
  · intro metas t h1 h2 h3
    simp only [extractFromOpenGraph, h1, h2, h3]
    by_cases hc : t.content = []
    · simp [hc]
    · simp [hc]
  · intro metas h1 h2 h3
    simp only [extractFromOpenGraph, h1, h2, h3]

/-- Witness for C6 (amended) at a concrete document (empty-content
`og:video` followed by a non-empty `og:video:url`). -/
theorem C6_witness :
    extractFromOpenGraph c6Metas =
      (if ([] : List Char) = [] then none
       else some { videoUrl := [], method := "opengraph" }) :=
  C6_amended.1 c6Metas { property := "og:video".data, content := [] } (by decide)

/-! ## Claim C3 -/

theorem findVideoAux_succ_obj (fuel : Nat)
    (fields : List (List Char × JsonVal)) :
    findVideoAux (Nat.succ fuel) (.obj fields) =
      match lookupField "video_url".data fields with
      | some u =>
        if truthy u then
          match u with
          | .str s => .ok (some (decodeAmp s))
          | _ => .error "TypeError"
        else findVideoObjRest (fun w => findVideoAux fuel w) fields
      | none => findVideoObjRest (fun w => findVideoAux fuel w) fields := rfl

/-- If the object has no truthy `video_url` field, `findVideoInObject`
falls through to the `video_versions` branch. -/
theorem findVideoAux_obj_no_vu {fuel : Nat}
    {fields : List (List Char × JsonVal)}
    (hvu : ∀ u, lookupField "video_url".data fields = some u →
      truthy u = false) :
    findVideoAux (Nat.succ fuel) (.obj fields) =
      findVideoObjRest (fun w => findVideoAux fuel w) fields := by
  rw [findVideoAux_succ_obj]
  cases hvu0 : lookupField "video_url".data fields with
  | none => rfl
  | some u => simp [hvu u hvu0]

/-- A non-empty `video_versions` array resolves to the escape-decoded
`url` of its best (first maximal-width) entry. -/
theorem findVideoObjRest_versions
    {f : JsonVal → Except String (Option (List Char))}
    {fields : List (List Char × JsonVal)} {e : JsonVal} {es : List JsonVal}
    {best : JsonVal}
    (hvv : lookupField "video_versions".data fields = some (.arr (e :: es)))
    (hb : firstMaxBy widthOf (e :: es) = some best) :
    findVideoObjRest f fields = entryUrl best := by
  unfold findVideoObjRest
  rw [hvv]
  show (match firstMaxBy widthOf (e :: es) with
        | some b => entryUrl b
        | none => Except.ok none) = entryUrl best
  rw [hb]

/-- C3 counterexample: a structure containing a non-empty
`video_versions` array (single entry of width 5, url `Y`) but also a
truthy `video_url` field `X` makes the extractor return `X`, not the
max-width entry's url `Y` — a `video_url` field takes precedence over
`video_versions`, refuting the claim's universal statement. -/
theorem C3_counterexample :
    findVideoInObject (.obj c3CexFields) 0 = .ok (some "X".data) ∧
    lookupField "video_versions".data c3CexFields = some (.arr [c3Entry]) ∧
    firstMaxBy widthOf [c3Entry] = some c3Entry ∧
    entryUrl c3Entry = .ok (some "Y".data) ∧
    ("X".data : List Char) ≠ "Y".data :=
  ⟨rfl, rfl, rfl, rfl, by decide⟩

/-- C3 (amended): for every structure with a non-empty `video_versions`
array and no truthy `video_url` field (which would take precedence), at
a depth within the recursion bound, the extractor resolves to the
escape-decoded `url` of the entry with maximal numeric width (a missing
width counts as 0 via `(b.width || 0)`), ties broken by
first-encountered order (the winning entry is the first one whose width
is maximal); in particular `[{width:480,url:U1},{width:1080,url:U2}]`
yields `U2`. -/
theorem C3_amended :
    (∀ (fields : List (List Char × JsonVal)) (entries : List JsonVal)
        (d : Nat),
      d ≤ 15 →
      (∀ u, lookupField "video_url".data fields = some u →
        truthy u = false) →
      lookupField "video_versions".data fields = some (.arr entries) →
      entries ≠ [] →
      ∃ best, firstMaxBy widthOf entries = some best ∧
        findVideoInObject (.obj fields) d = entryUrl best ∧
        entries.find?
            (fun e => decide (∀ f ∈ entries, widthOf f ≤ widthOf e)) =
          some best) ∧
    findVideoInObject (.obj c3ExampleFields) 0 = .ok (some "U2".data) := by
  constructor
  · intro fields entries d hd hvu hvv hne
    obtain ⟨k, hk⟩ : ∃ k, 16 - d = Nat.succ k := ⟨15 - d, by omega⟩
    cases entries with
    | nil => exact absurd rfl hne
    | cons e es =>
      have hsome := firstMaxBy_cons_isSome widthOf e es
      cases hb : firstMaxBy widthOf (e :: es) with
      | none => rw [hb] at hsome; simp at hsome
      | some best =>
        refine ⟨best, rfl, ?_, ?_⟩
        · have h0 : findVideoInObject (.obj fields) d =
              findVideoAux (16 - d) (.obj fields) := rfl
          rw [h0, hk, findVideoAux_obj_no_vu hvu,
            findVideoObjRest_versions hvv hb]
        · rw [← firstMaxBy_eq_find? widthOf (e :: es), hb]
  · rfl

/-- Witness for C3 (amended) at the spec's concrete example. -/
theorem C3_witness :
    ∃ best, firstMaxBy widthOf c3ExampleEntries = some best ∧
      findVideoInObject (.obj c3ExampleFields) 0 = entryUrl best ∧
      c3ExampleEntries.find?
          (fun e => decide (∀ f ∈ c3ExampleEntries, widthOf f ≤ widthOf e)) =
        some best :=
  C3_amended.1 c3ExampleFields c3ExampleEntries 0 (by decide)
    (fun u h => Option.noConfusion h) rfl (List.cons_ne_nil _ _)

/-! ## Claim C4 -/

/-- C4: the broad pattern scan collects every match of its three
field-name patterns across the whole document (that is the definition
of `gqlCandidates`, a global scan per pattern); it returns "no match"
exactly when zero candidates were collected, and otherwise
deterministically returns the first candidate of maximal string length
(the head of the stable descending-by-length sort), ties broken by
first-encountered order. -/
theorem C4_theorem (html : List Char) :
    (extractFromGraphQL html = none ↔ gqlCandidates html = []) ∧
    (∀ r, extractFromGraphQL html = some r →
      r.method = "graphql_regex" ∧
      (gqlCandidates html).find?
          (fun c => decide (∀ b ∈ gqlCandidates html, b.length ≤ c.length)) =
        some r.videoUrl) := by
  cases hc : gqlCandidates html with
  | nil =>
    have hx : extractFromGraphQL html = none := by
      unfold extractFromGraphQL
      rw [hc]
    refine ⟨⟨fun _ => rfl, fun _ => hx⟩, ?_⟩
    intro r hr
    rw [hx] at hr
    exact Option.noConfusion hr
  | cons c cs =>
    have hsome := firstMaxBy_cons_isSome List.length c cs
    cases hb : firstMaxBy List.length (c :: cs) with
    | none => rw [hb] at hsome; simp at hsome
    | some best =>
      have hx : extractFromGraphQL html =
          some { videoUrl := best, method := "graphql_regex" } := by
        unfold extractFromGraphQL
        rw [hc]
        show (match firstMaxBy List.length (c :: cs) with
              | some b =>
                some ({ videoUrl := b, method := "graphql_regex" } : ExtractResult)
              | none => none) =
          some ({ videoUrl := best, method := "graphql_regex" } : ExtractResult)
        rw [hb]
      refine ⟨⟨fun h => absurd (hx.symm.trans h) (by simp),
        fun h => absurd h (by simp)⟩, ?_⟩
      intro r hr
      rw [hx] at hr
      simp only [Option.some.injEq] at hr
      subst hr
      exact ⟨rfl, by rw [← firstMaxBy_eq_find? List.length (c :: cs), hb]⟩

/-- Witness for C4 at a concrete document with two equal-length
candidates: the first-encountered one wins. -/
theorem C4_witness :
    (gqlCandidates c4Doc).find?
        (fun c => decide (∀ b ∈ gqlCandidates c4Doc, b.length ≤ c.length)) =
      some "https://ab".data :=
  ((C4_theorem c4Doc).2
    ({ videoUrl := "https://ab".data, method := "graphql_regex" } : ExtractResult)
    (by decide)).2

/-! ## Claim C1 -/

/-- C1: the orchestrator runs the strategies in the fixed order A, B, C
and returns the first result that is non-null with a truthy `videoUrl`
(thanks to the `try`/`catch`, a thrown strategy is skipped exactly like
a "no match", anywhere in the chain — first conjunct; short-circuit on
the first success — second conjunct; the fixed A-then-B-then-C order —
third conjunct); and within Strategy A, a matched sharedData pattern
whose JSON blob fails to parse is treated as "no match", the chain
continuing with the next pattern and then the next strategies — fourth
conjunct. -/
theorem C1_theorem :
    (∀ (pre post : List (Except String (Option ExtractResult))) (e : String),
      extractChain (pre ++ .error e :: post) = extractChain (pre ++ post)) ∧
    (∀ (r : ExtractResult) (rest : List (Except String (Option ExtractResult))),
      r.videoUrl ≠ [] → extractChain (.ok (some r) :: rest) = some r) ∧
    (∀ d : Document, extractVideoUrl d =
      match extractFromEmbeddedJson d.html with
      | some r => .ok r
      | none =>
        match extractFromOpenGraph d.metas with
        | some r => .ok r
        | none =>
          match extractFromGraphQL d.html with
          | some r => .ok r
          | none => .error { message := extractionFailedMessage }) ∧
    (∀ (html blob : List Char),
      firstMatch matchSharedDataAt html = some blob →
      jsonParse blob = none →
      extractFromEmbeddedJson html =
        (match stratAPattern2 html with
         | some r => some r
         | none => stratAPattern3 html)) := by
  refine ⟨fun pre post e => extractChain_error_skip e pre post,
    fun r rest hr => extractChain_ok_some hr rest,
    extractVideoUrl_order, ?_⟩
  intro html blob hm hp
  have h1 : stratAPattern1 html = none := by
    unfold stratAPattern1
    rw [hm]
    show (match jsonParse blob with
          | none => none
          | some data =>
            match findVideoInObject data 0 with
            | .error _ => none
            | .ok none => none
            | .ok (some s) =>
              if s ≠ [] then
                some ({ videoUrl := s, method := "embedded_json_parsed" } :
                  ExtractResult)
              else none) = none
    rw [hp]
  unfold extractFromEmbeddedJson
  rw [h1]

/-- Witness for C1: a concrete short-circuit instance, and a concrete
document whose sharedData pattern matches with a truncated JSON blob —
extraction proceeds past pattern 1. -/
theorem C1_witness :
    extractChain [.ok (some c1Res)] = some c1Res ∧
    extractFromEmbeddedJson c1Html =
      (match stratAPattern2 c1Html with
       | some r => some r
       | none => stratAPattern3 c1Html) :=
  ⟨C1_theorem.2.1 c1Res [] (by decide),
   C1_theorem.2.2.2 c1Html c1Blob rfl rfl⟩

/-! ## Claim C5 -/

/-- C5 counterexample: for a document whose direct bare-URL pattern
matches the value `https:\/\/cdn&x`, Strategy A returns
`https:\/\/cdn&x` — only `\u0026` is decoded, while `\/` is left
intact; the decoding Strategy C applies to the same value yields
`https://cdn&x`, which differs.  This refutes "both escape sequences
decoded — the same decoding that Strategy C applies". -/
theorem C5_counterexample :
    extractFromEmbeddedJson c5Html =
      some { videoUrl := "https:\\/\\/cdn&x".data,
             method := "embedded_json_direct" } ∧
    decodeAmpSlash "https:\\/\\/cdn\\u0026x".data = "https://cdn&x".data ∧
    ("https:\\/\\/cdn&x".data : List Char) ≠ "https://cdn&x".data :=
  ⟨by decide, by decide, by decide⟩

/-- C5 (amended): when the direct bare-URL pattern is reached (patterns
1 and 2 having missed) and matches, Strategy A returns the matched
value with only `\u0026` decoded to `&`; `\/` sequences are left
intact — unlike Strategy C, whose decoding additionally turns `\/`
into `/`. -/
theorem C5_amended :
    (∀ (html cap : List Char),
      stratAPattern1 html = none →
      stratAPattern2 html = none →
      firstMatch (matchKeyUrlAt "video_url".data) html = some cap →
      extractFromEmbeddedJson html =
        some { videoUrl := decodeAmp cap, method := "embedded_json_direct" }) ∧
    decodeAmp "\\/".data = "\\/".data ∧
    decodeAmpSlash "\\/".data = "/".data := by
  refine ⟨?_, by decide, by decide⟩
  intro html cap h1 h2 hm
  have h3 : stratAPattern3 html =
      some { videoUrl := decodeAmp cap, method := "embedded_json_direct" } := by
    unfold stratAPattern3
    rw [hm]
  unfold extractFromEmbeddedJson
  rw [h1]
  show (match stratAPattern2 html with
        | some r => some r
        | none => stratAPattern3 html) =
      some ({ videoUrl := decodeAmp cap, method := "embedded_json_direct" } :
        ExtractResult)
  rw [h2]
  exact h3

/-- Witness for C5 (amended) at the counterexample document. -/
theorem C5_witness :
    extractFromEmbeddedJson c5Html =
      some { videoUrl := decodeAmp "https:\\/\\/cdn\\u0026x".data,
             method := "embedded_json_direct" } :=
  C5_amended.1 c5Html "https:\\/\\/cdn\\u0026x".data rfl rfl rfl

/-! ## Normalizer lemmas (for C7 and C9) -/

theorem ciEqList_length : ∀ {xs pat : List Char},
    ciEqList xs pat = true → xs.length = pat.length := by
  intro xs
  induction xs with
  | nil => intro pat h; cases pat with
    | nil => rfl
    | cons b bs => simp [ciEqList] at h
  | cons a as ih =>
    intro pat h
    cases pat with
    | nil => simp [ciEqList] at h
    | cons b bs =>
      simp only [ciEqList, Bool.and_eq_true] at h
      simp [ih h.2]

theorem ciEqList_cons_inv {ty : List Char} {b : Char} {bs : List Char}
    (h : ciEqList ty (b :: bs) = true) :
    ∃ a as, ty = a :: as ∧ a.toLower = b.toLower ∧ ciEqList as bs = true := by
  cases ty with
  | nil => simp [ciEqList] at h
  | cons a as =>
    simp only [ciEqList, Bool.and_eq_true, decide_eq_true_eq] at h
    exact ⟨a, as, rfl, h.1, h.2⟩

theorem dropLitCI_some : ∀ (pat s r : List Char), dropLitCI pat s = some r →
    s = s.take pat.length ++ r ∧ ciEqList (s.take pat.length) pat = true := by
  intro pat
  induction pat with
  | nil =>
    intro s r h
    simp [dropLitCI] at h
    simp [h, ciEqList]
  | cons p ps ih =>
    intro s r h
    cases s with
    | nil => simp [dropLitCI] at h
    | cons c cs =>
      simp only [dropLitCI] at h
      split at h
      · obtain ⟨h1, h2⟩ := ih cs r h
        constructor
        · simpa [List.take_cons] using h1
        · simp only [List.length_cons, List.take_cons, ciEqList,
            Bool.and_eq_true, decide_eq_true_eq]
          exact ⟨by assumption, h2⟩
      · exact absurd h (by simp)

theorem ciEq_dropLitCI : ∀ {pat xs : List Char}, ciEqList xs pat = true →
    ∀ (r : List Char), dropLitCI pat (xs ++ r) = some r := by
  intro pat
  induction pat with
  | nil =>
    intro xs h r
    cases xs with
    | nil => simp [dropLitCI]
    | cons a as => simp [ciEqList] at h
  | cons p ps ih =>
    intro xs h r
    cases xs with
    | nil => simp [ciEqList] at h
    | cons a as =>
      simp only [ciEqList, Bool.and_eq_true, decide_eq_true_eq] at h
      simp only [List.cons_append, dropLitCI, h.1, if_pos]
      exact ih h.2 r

theorem ciEqList_self : ∀ (xs : List Char), ciEqList xs xs = true := by
  intro xs
  induction xs with
  | nil => rfl
  | cons a as ih => simp [ciEqList, ih]

theorem takeWhile_append_stop {p : Char → Bool} :
    ∀ (code : List Char) (x : Char) (rest : List Char),
      (∀ c ∈ code, p c = true) → p x = false →
      (code ++ x :: rest).takeWhile p = code := by
  intro code
  induction code with
  | nil => intro x rest _ hx; simp [List.takeWhile, hx]
  | cons a as ih =>
    intro x rest hall hx
    have ha := hall a (List.mem_cons_self a as)
    simp only [List.cons_append, List.takeWhile, ha]
    simp [ih x rest (fun c hc => hall c (List.mem_cons_of_mem _ hc)) hx]

/-- Success characterization of one alternative: the matched type text
is case-insensitively the alternative, and the shortcode is a non-empty
run of shortcode characters. -/
theorem tryAlt_some {alt s ty code : List Char}
    (h : tryAlt alt s = some (ty, code)) :
    ciEqList ty alt = true ∧ code ≠ [] ∧
      (∀ c ∈ code, isShortcodeChar c = true) := by
  unfold tryAlt at h
  cases hdc : dropLitCI alt s with
  | none => rw [hdc] at h; exact absurd h (by simp)
  | some rest =>
    simp only [hdc] at h
    obtain ⟨hs, hci⟩ := dropLitCI_some alt s rest hdc
    split at h
    · split at h
      · exact absurd h (by simp)
      · simp only [Option.some.injEq, Prod.mk.injEq] at h
        obtain ⟨hty, hcode⟩ := h
        subst hty
        subst hcode
        refine ⟨hci, by assumption, fun c hc => List.mem_takeWhile_imp hc⟩
    · exact absurd h (by simp)

theorem dropLitCI_none_head {p : Char} {pat : List Char} {a : Char}
    {s : List Char} (h : ¬ a.toLower = p.toLower) :
    dropLitCI (p :: pat) (a :: s) = none := by
  simp [dropLitCI, h]

theorem tryAlt_none_of_drop_none {alt s : List Char}
    (hd : dropLitCI alt s = none) : tryAlt alt s = none := by
  unfold tryAlt
  rw [hd]

theorem tryAlt_none_of_drop_cons {alt s : List Char} {e : Char} {t : List Char}
    (hd : dropLitCI alt s = some (e :: t)) (he : e ≠ '/') :
    tryAlt alt s = none := by
  unfold tryAlt
  simp only [hd]
  split
  · rename_i rest2 heq
    simp only [List.cons.injEq] at heq
    exact absurd heq.1 he
  · rfl

/-- Reparse of a canonical tail `<type>/<shortcode>/` by a matching
alternative. -/
theorem tryAlt_of_ciEq {alt ty code : List Char}
    (hty : ciEqList ty alt = true)
    (hcode : ∀ c ∈ code, isShortcodeChar c = true) (hne : code ≠ []) :
    tryAlt alt (ty ++ '/' :: (code ++ ['/'])) = some (ty, code) := by
  unfold tryAlt
  rw [ciEq_dropLitCI hty]
  show (if (code ++ '/' :: []).takeWhile isShortcodeChar = [] then none
        else some ((ty ++ '/' :: (code ++ ['/'])).take alt.length,
          (code ++ '/' :: []).takeWhile isShortcodeChar)) = some (ty, code)
  have htw : (code ++ '/' :: []).takeWhile isShortcodeChar = code :=
    takeWhile_append_stop code '/' [] hcode (by decide)
  rw [htw, if_neg hne]
  have hlen : ty.length = alt.length := ciEqList_length hty
  rw [← hlen, List.take_left]

/-- Characterization of the ordered alternation on success. -/
theorem matchType_some {s ty code : List Char}
    (h : matchType s = some (ty, code)) :
    (ciEqList ty ['p'] = true ∨ ciEqList ty "reel".data = true ∨
      ciEqList ty "reels".data = true ∨ ciEqList ty "tv".data = true) ∧
    code ≠ [] ∧ (∀ c ∈ code, isShortcodeChar c = true) := by
  unfold matchType at h
  cases h1 : tryAlt ['p'] s with
  | some pr =>
    obtain ⟨ty0, code0⟩ := pr
    rw [h1] at h
    simp only [Option.some.injEq, Prod.mk.injEq] at h
    obtain ⟨h2, h3⟩ := h
    subst h2
    subst h3
    obtain ⟨hci, hne, hall⟩ := tryAlt_some h1
    exact ⟨Or.inl hci, hne, hall⟩
  | none =>
    simp only [h1] at h
    cases h2 : tryAlt "reel".data s with
    | some pr =>
      obtain ⟨ty0, code0⟩ := pr
      rw [h2] at h
      simp only [Option.some.injEq, Prod.mk.injEq] at h
      obtain ⟨h3, h4⟩ := h
      subst h3
      subst h4
      obtain ⟨hci, hne, hall⟩ := tryAlt_some h2
      exact ⟨Or.inr (Or.inl hci), hne, hall⟩
    | none =>
      simp only [h2] at h
      cases h3 : tryAlt "reels".data s with
      | some pr =>
        obtain ⟨ty0, code0⟩ := pr
        rw [h3] at h
        simp only [Option.some.injEq, Prod.mk.injEq] at h
        obtain ⟨h4, h5⟩ := h
        subst h4
        subst h5
        obtain ⟨hci, hne, hall⟩ := tryAlt_some h3
        exact ⟨Or.inr (Or.inr (Or.inl hci)), hne, hall⟩
      | none =>
        simp only [h3] at h
        obtain ⟨hci, hne, hall⟩ := tryAlt_some h
        exact ⟨Or.inr (Or.inr (Or.inr hci)), hne, hall⟩

/-- Reparse of the canonical tail: the ordered alternation returns the
same type text and shortcode (earlier alternatives fail exactly as the
regex engine's backtracking makes them fail). -/
theorem matchType_canonical {ty code : List Char}
    (hty : ciEqList ty ['p'] = true ∨ ciEqList ty "reel".data = true ∨
      ciEqList ty "reels".data = true ∨ ciEqList ty "tv".data = true)
    (hcode : ∀ c ∈ code, isShortcodeChar c = true) (hne : code ≠ []) :
    matchType (ty ++ '/' :: (code ++ ['/'])) = some (ty, code) := by
  rcases hty with hp | hr | hrs | htv
  · unfold matchType
    rw [tryAlt_of_ciEq hp hcode hne]
  · obtain ⟨a, as, h1, ha, _⟩ :=
      ciEqList_cons_inv (show ciEqList ty ('r' :: "eel".data) = true from hr)
    have hfail1 : tryAlt ['p'] (ty ++ '/' :: (code ++ ['/'])) = none := by
      subst h1
      apply tryAlt_none_of_drop_none
      show dropLitCI ['p'] (a :: (as ++ '/' :: (code ++ ['/']))) = none
      apply dropLitCI_none_head
      rw [ha]
      decide
    unfold matchType
    simp only [hfail1, tryAlt_of_ciEq hr hcode hne]
  · obtain ⟨a, as1, h1, ha, hr1⟩ :=
      ciEqList_cons_inv (show ciEqList ty ('r' :: "eels".data) = true from hrs)
    obtain ⟨b, as2, h2, hb, hr2⟩ :=
      ciEqList_cons_inv (show ciEqList as1 ('e' :: "els".data) = true from hr1)
    obtain ⟨c, as3, h3, hc, hr3⟩ :=
      ciEqList_cons_inv (show ciEqList as2 ('e' :: "ls".data) = true from hr2)
    obtain ⟨d, as4, h4, hd, hr4⟩ :=
      ciEqList_cons_inv (show ciEqList as3 ('l' :: "s".data) = true from hr3)
    obtain ⟨e, as5, h5, he, hr5⟩ :=
      ciEqList_cons_inv (show ciEqList as4 ('s' :: []) = true from hr4)
    have has5 : as5 = [] := by
      cases as5 with
      | nil => rfl
      | cons x xs => simp [ciEqList] at hr5
    have hfail1 : tryAlt ['p'] (ty ++ '/' :: (code ++ ['/'])) = none := by
      rw [h1]
      apply tryAlt_none_of_drop_none
      show dropLitCI ['p'] (a :: (as1 ++ '/' :: (code ++ ['/']))) = none
      apply dropLitCI_none_head
      rw [ha]
      decide
    have hfail2 : tryAlt "reel".data (ty ++ '/' :: (code ++ ['/'])) = none := by
      have hci4 : ciEqList [a, b, c, d] "reel".data = true := by
        simp [ciEqList, ha, hb, hc, hd]
      have hd4 : dropLitCI "reel".data (ty ++ '/' :: (code ++ ['/'])) =
          some (e :: ('/' :: (code ++ ['/']))) := by
        rw [h1, h2, h3, h4, h5, has5]
        show dropLitCI "reel".data
          ([a, b, c, d] ++ (e :: ('/' :: (code ++ ['/'])))) = _
        exact ciEq_dropLitCI hci4 _
      apply tryAlt_none_of_drop_cons hd4
      intro hee
      rw [hee] at he
      exact absurd he (by decide)
    unfold matchType
    simp only [hfail1, hfail2, tryAlt_of_ciEq hrs hcode hne]
  · obtain ⟨a, as, h1, ha, _⟩ :=
      ciEqList_cons_inv (show ciEqList ty ('t' :: "v".data) = true from htv)
    have hfail1 : tryAlt ['p'] (ty ++ '/' :: (code ++ ['/'])) = none := by
      rw [h1]
      apply tryAlt_none_of_drop_none
      show dropLitCI ['p'] (a :: (as ++ '/' :: (code ++ ['/']))) = none
      apply dropLitCI_none_head
      rw [ha]
      decide
    have hfail2 : tryAlt "reel".data (ty ++ '/' :: (code ++ ['/'])) = none := by
      rw [h1]
      apply tryAlt_none_of_drop_none
      show dropLitCI "reel".data (a :: (as ++ '/' :: (code ++ ['/']))) = none
      apply dropLitCI_none_head
      rw [ha]
      decide
    have hfail3 : tryAlt "reels".data (ty ++ '/' :: (code ++ ['/'])) = none := by
      rw [h1]
      apply tryAlt_none_of_drop_none
      show dropLitCI "reels".data (a :: (as ++ '/' :: (code ++ ['/']))) = none
      apply dropLitCI_none_head
      rw [ha]
      decide
    unfold matchType
    simp only [hfail1, hfail2, hfail3, tryAlt_of_ciEq htv hcode hne]

/-- Forward characterization of a successful `validateUrl`. -/
theorem validateUrl_shape {input : List Char} {r : PostRef}
    (h : validateUrl input = some r) :
    r.url = canonicalUrl r.type r.shortcode ∧
    (ciEqList r.type ['p'] = true ∨ ciEqList r.type "reel".data = true ∨
      ciEqList r.type "reels".data = true ∨ ciEqList r.type "tv".data = true) ∧
    r.shortcode ≠ [] ∧ (∀ c ∈ r.shortcode, isShortcodeChar c = true) := by
  unfold validateUrl at h
  cases h1 : schemeStep input with
  | none => rw [h1] at h; exact absurd h (by simp)
  | some s1 =>
    simp only [h1] at h
    cases h2 : hostStep s1 with
    | none => rw [h2] at h; exact absurd h (by simp)
    | some s2 =>
      simp only [h2] at h
      cases h3 : matchType s2 with
      | none => rw [h3] at h; exact absurd h (by simp)
      | some pr =>
        obtain ⟨ty, code⟩ := pr
        simp only [h3, Option.some.injEq] at h
        subst h
        obtain ⟨hty4, hne, hall⟩ := matchType_some h3
        exact ⟨rfl, hty4, hne, hall⟩

/-- Reparsing a canonical URL succeeds and reproduces the same record. -/
theorem validateUrl_canonical {ty code : List Char}
    (hty : ciEqList ty ['p'] = true ∨ ciEqList ty "reel".data = true ∨
      ciEqList ty "reels".data = true ∨ ciEqList ty "tv".data = true)
    (hcode : ∀ c ∈ code, isShortcodeChar c = true) (hne : code ≠ []) :
    validateUrl (canonicalUrl ty code) =
      some { url := canonicalUrl ty code, shortcode := code, type := ty } := by
  have hscheme : schemeStep (canonicalUrl ty code) =
      some ("www.instagram.com/".data ++ (ty ++ '/' :: (code ++ ['/']))) := by
    unfold schemeStep
    have hd : dropLitCI "https://".data (canonicalUrl ty code) =
        some ("www.instagram.com/".data ++ (ty ++ '/' :: (code ++ ['/']))) := by
      show dropLitCI "https://".data
        ("https://".data ++
          ("www.instagram.com/".data ++ (ty ++ '/' :: (code ++ ['/'])))) = _
      exact ciEq_dropLitCI (ciEqList_self _) _
    rw [hd]
  have hhost : hostStep
      ("www.instagram.com/".data ++ (ty ++ '/' :: (code ++ ['/']))) =
      some (ty ++ '/' :: (code ++ ['/'])) := by
    unfold hostStep
    rw [ciEq_dropLitCI (ciEqList_self "www.instagram.com/".data) _]
  unfold validateUrl
  simp only [hscheme, hhost, matchType_canonical hty hcode hne]

/-! ## Claim C7 -/

/-- C7 counterexample: the regex carries the `i` flag and the capture
keeps the input's case, so `https://instagram.com/REEL/abc` is accepted
with postType `REEL` — which is not literally one of the four path
types `p`, `reel`, `reels`, `tv`. -/
theorem C7_counterexample :
    validateUrl "https://instagram.com/REEL/abc".data =
      some { url := "https://www.instagram.com/REEL/abc/".data,
             shortcode := "abc".data, type := "REEL".data } ∧
    "REEL".data ∉ [['p'], "reel".data, "reels".data, "tv".data] := by
  exact ⟨by decide, by decide⟩

/-- C7 (amended): every accepted input yields a PostRef whose
canonicalUrl is exactly `https://www.instagram.com/<postType>/<shortcode>/`
with postType equal to one of `p`, `reel`, `reels`, `tv` *up to ASCII
case* (the regex is case-insensitive and the capture keeps the input's
case) and shortcode a non-empty run of `[A-Za-z0-9_-]` characters,
regardless of query string or trailing path segments; in particular
`https://www.instagram.com/reel/<code>/?ignored=1` and
`https://instagram.com/reel/<code>` normalize to the same PostRef. -/
theorem C7_amended :
    (∀ (input : List Char) (r : PostRef), validateUrl input = some r →
      r.url = "https://www.instagram.com/".data ++
        (r.type ++ '/' :: (r.shortcode ++ ['/'])) ∧
      (ciEqList r.type ['p'] = true ∨ ciEqList r.type "reel".data = true ∨
        ciEqList r.type "reels".data = true ∨
        ciEqList r.type "tv".data = true) ∧
      r.shortcode ≠ [] ∧ (∀ c ∈ r.shortcode, isShortcodeChar c = true)) ∧
    validateUrl "https://www.instagram.com/reel/Abc123_-/?ignored=1".data =
      validateUrl "https://instagram.com/reel/Abc123_-".data ∧
    (validateUrl "https://instagram.com/reel/Abc123_-".data).isSome = true := by
  refine ⟨?_, by decide, by decide⟩
  intro input r h
  exact validateUrl_shape h

/-- Witness for C7 (amended) at the case-insensitive concrete input. -/
theorem C7_witness :
    ("https://www.instagram.com/REEL/abc/".data : List Char) =
      "https://www.instagram.com/".data ++
        ("REEL".data ++ '/' :: ("abc".data ++ ['/'])) ∧
    (ciEqList "REEL".data ['p'] = true ∨
      ciEqList "REEL".data "reel".data = true ∨
      ciEqList "REEL".data "reels".data = true ∨
      ciEqList "REEL".data "tv".data = true) ∧
    "abc".data ≠ ([] : List Char) ∧
    (∀ c ∈ "abc".data, isShortcodeChar c = true) :=
  C7_amended.1 "https://instagram.com/REEL/abc".data
    { url := "https://www.instagram.com/REEL/abc/".data,
      shortcode := "abc".data, type := "REEL".data } (by decide)

/-! ## Claim C9 -/

/-- C9: `validateUrl` is idempotent — re-running it on the canonicalUrl
of its own output yields the very same PostRef (the output is a fixed
point). -/
theorem C9_theorem {input : List Char} {r : PostRef}
    (h : validateUrl input = some r) : validateUrl r.url = some r := by
  obtain ⟨hurl, hty, hne, hall⟩ := validateUrl_shape h
  rw [hurl, validateUrl_canonical hty hall hne]
  cases r with
  | mk url sc ty2 =>
    simp only at hurl
    simp [hurl]

/-- Witness for C9 at a concrete accepted input. -/
theorem C9_witness :
    validateUrl "https://www.instagram.com/reel/Abc123_-/".data =
      some { url := "https://www.instagram.com/reel/Abc123_-/".data,
             shortcode := "Abc123_-".data, type := "reel".data } :=
  by
  have h : validateUrl "https://instagram.com/reel/Abc123_-".data =
      some { url := "https://www.instagram.com/reel/Abc123_-/".data,
             shortcode := "Abc123_-".data, type := "reel".data } := by decide
  exact C9_theorem h

end SaveGram
